import Mathlib

/-!
# shippy-service-consignment: in-memory repository and service adapter

A shallow embedding of `shippy-service-consignment/main.go`.

Go slices are modelled with an explicit heap of backing arrays, so that aliasing
between the slice header stored in `Repository.consignments` and the slice header
handed to a caller of `GetAll` is visible:

* a heap is a list of backing arrays, an address is an index into that list;
* a slice header is `(ptr, len, cap)`; the program contains no slicing expression
  `s[a:b]`, so every header points at the first cell of its backing array;
* `make`, `copy`, `append`, `s[i]` and `s[i] = v` follow the Go language
  specification; the capacity chosen by `append` when it has to reallocate is a
  decision of the Go runtime and is a parameter `grow` of the model.

The embedding is sequential: `sync.RWMutex` is always free between two calls and
every `Lock` is paired with an `Unlock` inside the same call, so the mutex carries
no state here.  The lines of the source that take or release it are kept as comments.
-/

set_option autoImplicit false

namespace Shippy

/-! ## Go slices over a heap of backing arrays -/

/-- Heap of backing arrays; the address of an array is its position in the list. -/
abbrev Heap (α : Type) := List (List α)

/-- Go slice header. `ptr = none` is the nil pointer. -/
structure Slice where
  ptr : Option Nat
  len : Nat
  cap : Nat
deriving DecidableEq, Repr

/-- Go `error` value that is not nil. -/
structure GoError where
  msg : String
deriving DecidableEq, Repr

variable {α : Type}

/-- The zero value of a slice type: the nil slice. -/
def Slice.zero : Slice := ⟨none, 0, 0⟩

/-- Backing array designated by a pointer (no cells behind the nil pointer). -/
def Heap.array (h : Heap α) (p : Option Nat) : List α :=
  match p with
  | none => []
  | some a => h.getD a []

/-- A slice header is well formed in a heap: `len ≤ cap`, the pointer designates an
allocated array, and the array has at least `cap` cells. The nil pointer has capacity 0. -/
def Slice.WF (h : Heap α) (s : Slice) : Prop :=
  s.len ≤ s.cap ∧ s.cap ≤ (Heap.array h s.ptr).length ∧
    ∀ a, s.ptr = some a → a < h.length

/-- The sequence of elements a slice denotes: the first `len` cells of its array. -/
def Slice.toList (h : Heap α) (s : Slice) : List α :=
  (Heap.array h s.ptr).take s.len

/-- Go `s[i]`; `none` is the run-time panic for an index out of range. -/
def Slice.index (h : Heap α) (s : Slice) (i : Nat) : Option α :=
  if i < s.len then (Heap.array h s.ptr)[i]? else none

/-- Go `s[i] = v`; `none` is the run-time panic for an index out of range. -/
def Slice.store (h : Heap α) (s : Slice) (i : Nat) (v : α) : Option (Heap α) :=
  if i < s.len then
    match s.ptr with
    | none => none
    | some a => some (h.set a ((h.getD a []).set i v))
  else none

/-- Go `make([]T, n, c)` with `n ≤ c`: a fresh array of `c` zero cells, and a header of
length `n` and capacity `c` pointing at it. -/
def goMake [Inhabited α] (h : Heap α) (n c : Nat) (_hle : n ≤ c) : Slice × Heap α :=
  (⟨some h.length, n, c⟩, h ++ [List.replicate c default])

/-- Go `copy(dst, src)`: copies `min(len(dst), len(src))` elements and returns that number. -/
def goCopy (h : Heap α) (dst src : Slice) : Nat × Heap α :=
  let n := min dst.len src.len
  match dst.ptr with
  | none => (n, h)
  | some d => (n, h.set d ((Heap.array h src.ptr).take n ++ (h.getD d []).drop n))

/-- Go `append(s, v)`. With spare capacity the value is written into the cell just after
the last element of the existing array. Otherwise a new array is allocated, large enough
for `len + 1` elements (`grow oldCap needed` is the capacity the runtime would like),
the elements are copied and the value is written after them. -/
def goAppend [Inhabited α] (grow : Nat → Nat → Nat) (h : Heap α) (s : Slice) (v : α) :
    Slice × Heap α :=
  match s.ptr, decide (s.len < s.cap) with
  | some a, true => (⟨some a, s.len + 1, s.cap⟩, h.set a ((h.getD a []).set s.len v))
  | _, _ =>
    let c := max (grow s.cap (s.len + 1)) (s.len + 1)
    (⟨some h.length, s.len + 1, c⟩,
      h ++ [Slice.toList h s ++ v :: List.replicate (c - (s.len + 1)) default])

/-! ## Repository -/

/-- The struct `Repository` (field `mu` carries no state in a sequential run). -/
structure Repository where
  consignments : Slice
deriving DecidableEq, Repr

/-- Program state: the heap of backing arrays and the `Repository` struct that the
receiver pointer `repo` designates. -/
structure World (α : Type) where
  heap : Heap α
  repo : Repository

/-- The state right after `repo := &Repository{}` in `main`, in any heap. -/
def World.init (h : Heap α) : World α := ⟨h, ⟨Slice.zero⟩⟩

/-- The stored sequence of the repository. -/
def World.stored (w : World α) : List α := Slice.toList w.heap w.repo.consignments

/-- Method `func (repo *Repository) Create(consignment *pb.Consignment) (*pb.Consignment, error)`. -/
def Repository.Create [Inhabited α] (grow : Nat → Nat → Nat) (consignment : α) (w : World α) :
    (α × Option GoError) × World α :=
  -- repo.mu.Lock()
  let (updated, heap1) := goAppend grow w.heap w.repo.consignments consignment
  let w1 : World α := ⟨heap1, ⟨updated⟩⟩
  -- repo.mu.Unlock()
  ((consignment, none), w1)

/-- The local variables of `GetAll` when it reaches its `return`. -/
structure GetAllLocals (α : Type) where
  cp : Slice
  copied : Nat
  heap : Heap α

/-- The body of `GetAll` up to its `return` statement. -/
def Repository.GetAll_locals [Inhabited α] (w : World α) : GetAllLocals α :=
  -- repo.mu.RLock(); defer repo.mu.RUnlock()
  let (cp, heap1) := goMake w.heap 0 w.repo.consignments.len (Nat.zero_le _)
  let (n, heap2) := goCopy heap1 cp w.repo.consignments
  ⟨cp, n, heap2⟩

/-- Method `func (repo *Repository) GetAll() ([]*pb.Consignment, error)`. -/
def Repository.GetAll [Inhabited α] (w : World α) : (Slice × Option GoError) × World α :=
  let l := Repository.GetAll_locals w
  ((w.repo.consignments, none), ⟨l.heap, w.repo⟩)

/-- Sequential calls `Create(c1); ...; Create(cn)`. -/
def createAll [Inhabited α] (grow : Nat → Nat → Nat) (cs : List α) (w : World α) : World α :=
  cs.foldl (fun w c => (Repository.Create grow c w).2) w

/-- A caller executes `r[i] = v` on a slice it holds. -/
def World.store (w : World α) (r : Slice) (i : Nat) (v : α) : Option (World α) :=
  (Slice.store w.heap r i v).map fun h => ⟨h, w.repo⟩

/-! ## Service -/

/-- The interface `repository`: an implementation is a pair of methods over whatever
state `σ` it keeps. -/
structure repository (σ α : Type) where
  Create : α → σ → (α × Option GoError) × σ
  GetAll : σ → (Slice × Option GoError) × σ

/-- The message `pb.CreateResponse`. -/
structure CreateResponse (α : Type) where
  Created : Bool
  Consignment : α
deriving DecidableEq, Repr

/-- The message `pb.GetAllResponse`. -/
structure GetAllResponse where
  Consignments : Slice
deriving DecidableEq, Repr

/-- The struct `service`. -/
structure service (σ α : Type) where
  repo : repository σ α

variable {σ : Type}

/-- Method `func (s *service) CreateConsignment(ctx, req) (*pb.CreateResponse, error)`;
a nil response pointer is `none`. -/
def service.CreateConsignment (s : service σ α) (req : α) (st : σ) :
    (Option (CreateResponse α) × Option GoError) × σ :=
  let ((consignment, err), st1) := s.repo.Create req st
  match err with
  | some e => ((none, some e), st1)
  | none => ((some ⟨true, consignment⟩, none), st1)

/-- Method `func (s *service) GetConsignments(ctx, req) (*pb.GetAllResponse, error)`;
a nil response pointer is `none`. -/
def service.GetConsignments (s : service σ α) (st : σ) :
    (Option GetAllResponse × Option GoError) × σ :=
  let ((consignments, err), st1) := s.repo.GetAll st
  match err with
  | some e => ((none, some e), st1)
  | none => ((some ⟨consignments⟩, none), st1)

/-- The struct `Repository` as an implementation of the interface `repository`. -/
def Repository.impl [Inhabited α] (grow : Nat → Nat → Nat) : repository (World α) α :=
  ⟨Repository.Create grow, Repository.GetAll⟩

/-- States a sequential run can reach from the initial state of `main`: by `Create`, by
`GetAll`, and by a caller storing through a slice it holds. -/
inductive Reachable [Inhabited α] (grow : Nat → Nat → Nat) : World α → Prop
  | init (h : Heap α) : Reachable grow (World.init h)
  | create (w : World α) (c : α) : Reachable grow w →
      Reachable grow (Repository.Create grow c w).2
  | getAll (w : World α) : Reachable grow w → Reachable grow (Repository.GetAll w).2
  | store (w w1 : World α) (r : Slice) (i : Nat) (v : α) : Reachable grow w →
      World.store w r i v = some w1 → Reachable grow w1

/-- The capacity policy of the Go runtime for small slices: double the old capacity. -/
def growDouble (oldCap _needed : Nat) : Nat := 2 * oldCap

/-- Well-formedness of a slice header is decidable. -/
instance Slice.decidableWF (h : Heap α) (s : Slice) : Decidable (Slice.WF h s) :=
  decidable_of_iff
    (s.len ≤ s.cap ∧ s.cap ≤ (Heap.array h s.ptr).length ∧
      s.ptr.all (fun a => decide (a < h.length)) = true)
    (by
      unfold Slice.WF
      cases s.ptr <;> simp)

/-- The state reached from an empty heap by `Create(1); Create(2); Create(3)` under
`growDouble`: three elements stored in an array of four cells. -/
def sampleWorld : World Nat := ⟨[[1], [1, 2], [1, 2, 3, 0]], ⟨⟨some 2, 3, 4⟩⟩⟩

/-- An implementation of `repository` whose methods always return an error; its state
counts the calls. -/
def failingRepo : repository Nat Nat :=
  ⟨fun c n => ((c, some ⟨"create failed"⟩), n + 1),
   fun n => ((Slice.zero, some ⟨"get failed"⟩), n + 1)⟩

/-! ## Heap lemmas -/

theorem Heap.array_set_ne (h : Heap α) (a b : Nat) (x : List α) (hab : a ≠ b) :
    Heap.array (h.set a x) (some b) = Heap.array h (some b) := by
  simp [Heap.array, List.getD_eq_getElem?_getD, List.getElem?_set_ne hab]

theorem Heap.array_set_eq (h : Heap α) (a : Nat) (x : List α) (ha : a < h.length) :
    Heap.array (h.set a x) (some a) = x := by
  simp [Heap.array, List.getD_eq_getElem?_getD, ha]

theorem Heap.array_append_lt (h t : Heap α) (a : Nat) (ha : a < h.length) :
    Heap.array (h ++ t) (some a) = Heap.array h (some a) := by
  simp [Heap.array, List.getD_eq_getElem?_getD, List.getElem?_append_left ha]

theorem Heap.array_append_length (h : Heap α) (x : List α) :
    Heap.array (h ++ [x]) (some h.length) = x := by
  simp [Heap.array, List.getD_eq_getElem?_getD]

/-! ## `append` -/

theorem Slice.length_toList (h : Heap α) (s : Slice) (hs : Slice.WF h s) :
    (Slice.toList h s).length = s.len := by
  obtain ⟨h1, h2, _⟩ := hs
  simp only [Slice.toList, List.length_take]
  omega

theorem take_set_of_le (l : List α) (m n : Nat) (v : α) (hmn : m ≤ n) :
    (l.set n v).take m = l.take m := by
  rw [List.set_take]
  apply List.set_eq_of_length_le
  simp only [List.length_take]
  omega

theorem take_succ_set (l : List α) (n : Nat) (v : α) (hn : n < l.length) :
    (l.set n v).take (n + 1) = l.take n ++ [v] := by
  rw [List.take_succ, take_set_of_le l n n v (Nat.le_refl n)]
  simp [hn]

theorem take_append_cons (l t : List α) (v : α) (n : Nat) (hn : l.length = n) :
    (l ++ v :: t).take (n + 1) = l ++ [v] := by
  subst hn
  simp [List.take_append_eq_append_take]

theorem goAppend_cases [Inhabited α] (grow : Nat → Nat → Nat) (h : Heap α) (s : Slice) (v : α) :
    (∃ a, s.ptr = some a ∧ s.len < s.cap ∧
      goAppend grow h s v
        = (⟨some a, s.len + 1, s.cap⟩, h.set a ((Heap.array h (some a)).set s.len v))) ∨
    goAppend grow h s v
      = (⟨some h.length, s.len + 1, max (grow s.cap (s.len + 1)) (s.len + 1)⟩,
          h ++ [Slice.toList h s ++ v ::
            List.replicate (max (grow s.cap (s.len + 1)) (s.len + 1) - (s.len + 1)) default]) := by
  unfold goAppend
  cases hp : s.ptr with
  | none => right; rfl
  | some a =>
    by_cases hl : s.len < s.cap
    · left; exact ⟨a, rfl, hl, by simp [hl, Heap.array]⟩
    · right; simp [hl]

/-- On a well-formed slice `append` yields a well-formed slice that denotes the old
sequence followed by the new value. -/
theorem goAppend_spec [Inhabited α] (grow : Nat → Nat → Nat) (h : Heap α) (s : Slice) (v : α)
    (hs : Slice.WF h s) :
    Slice.WF (goAppend grow h s v).2 (goAppend grow h s v).1 ∧
    Slice.toList (goAppend grow h s v).2 (goAppend grow h s v).1 = Slice.toList h s ++ [v] := by
  have hlen := Slice.length_toList h s hs
  obtain ⟨h1, h2, h3⟩ := hs
  rcases goAppend_cases grow h s v with ⟨a, hp, hl, he⟩ | he
  · have ha : a < h.length := h3 a hp
    rw [hp] at h2
    rw [he]
    refine ⟨⟨hl, ?_, ?_⟩, ?_⟩
    · simp only [Heap.array_set_eq h a _ ha, List.length_set]; exact h2
    · intro b hb
      simp only [List.length_set]
      cases hb; exact ha
    · simp only [Slice.toList, Heap.array_set_eq h a _ ha, hp]
      exact take_succ_set _ _ _ (by omega)
  · rw [he]
    refine ⟨⟨Nat.le_max_right _ _, ?_, ?_⟩, ?_⟩
    · simp only [Heap.array_append_length, List.length_append, List.length_cons,
        List.length_replicate, hlen]
      have := Nat.le_max_right (grow s.cap (s.len + 1)) (s.len + 1)
      omega
    · intro b hb
      cases hb
      simp
    · simp only [Heap.array_append_length, Slice.toList.eq_1 (h ++ _)]
      exact take_append_cons _ _ v s.len hlen

/-- A slice that does not reach beyond the last element of `s` is untouched by
`append(s, v)`: it keeps denoting the same sequence. -/
theorem goAppend_frame [Inhabited α] (grow : Nat → Nat → Nat) (h : Heap α) (s r : Slice) (v : α)
    (hs : Slice.WF h s) (hr : Slice.WF h r) (hrs : r.ptr = s.ptr → r.len ≤ s.len) :
    Slice.WF (goAppend grow h s v).2 r ∧
    Slice.toList (goAppend grow h s v).2 r = Slice.toList h r ∧
    (r.ptr = (goAppend grow h s v).1.ptr → r.len ≤ (goAppend grow h s v).1.len) := by
  obtain ⟨r1, r2, r3⟩ := hr
  obtain ⟨_, _, h3⟩ := hs
  rcases goAppend_cases grow h s v with ⟨a, hp, hl, he⟩ | he
  · have ha : a < h.length := h3 a hp
    rw [he]
    cases hrp : r.ptr with
    | none =>
      rw [hrp] at r2
      refine ⟨⟨r1, by simpa [Heap.array, hrp] using r2, by simp [hrp]⟩, ?_, by simp⟩
      simp [Slice.toList, hrp, Heap.array]
    | some b =>
      have hb : b < h.length := r3 b hrp
      rw [hrp] at r2
      by_cases hab : a = b
      · subst hab
        have hle : r.len ≤ s.len := hrs (by rw [hrp, hp])
        refine ⟨⟨r1, ?_, ?_⟩, ?_, ?_⟩
        · simp only [hrp, Heap.array_set_eq h a _ ha, List.length_set]; exact r2
        · intro c hc; simp only [List.length_set]; exact r3 c hc
        · simp only [Slice.toList, hrp, Heap.array_set_eq h a _ ha]
          exact take_set_of_le _ _ _ _ hle
        · intro _; simp only; omega
      · refine ⟨⟨r1, ?_, ?_⟩, ?_, ?_⟩
        · simp only [hrp, Heap.array_set_ne h a b _ hab]; exact r2
        · intro c hc; simp only [List.length_set]; exact r3 c hc
        · simp only [Slice.toList, hrp, Heap.array_set_ne h a b _ hab]
        · intro hc; simp only [Option.some.injEq] at hc; exact absurd hc.symm hab
  · rw [he]
    cases hrp : r.ptr with
    | none =>
      rw [hrp] at r2
      refine ⟨⟨r1, by simpa [Heap.array, hrp] using r2, by simp [hrp]⟩, ?_, by simp⟩
      simp [Slice.toList, hrp, Heap.array]
    | some b =>
      have hb : b < h.length := r3 b hrp
      rw [hrp] at r2
      refine ⟨⟨r1, ?_, ?_⟩, ?_, ?_⟩
      · simp only [hrp, Heap.array_append_lt h _ b hb]; exact r2
      · intro c hc
        have := r3 c hc
        simp only [List.length_append]; omega
      · simp only [Slice.toList, hrp, Heap.array_append_lt h _ b hb]
      · intro hc; simp only [Option.some.injEq] at hc; omega

/-! ## `GetAll` and sequences of `Create` -/

theorem Repository.GetAll_locals_eq [Inhabited α] (w : World α) :
    Repository.GetAll_locals w
      = ⟨⟨some w.heap.length, 0, w.repo.consignments.len⟩, 0,
          w.heap ++ [List.replicate w.repo.consignments.len default]⟩ := by
  simp [Repository.GetAll_locals, goMake, goCopy]

theorem Repository.GetAll_eq [Inhabited α] (w : World α) :
    Repository.GetAll w
      = ((w.repo.consignments, none),
          ⟨w.heap ++ [List.replicate w.repo.consignments.len default], w.repo⟩) := by
  simp [Repository.GetAll, Repository.GetAll_locals_eq]

/-- Allocating further arrays leaves every well-formed slice as it was. -/
theorem Slice.frame_append (h t : Heap α) (r : Slice) (hr : Slice.WF h r) :
    Slice.WF (h ++ t) r ∧ Slice.toList (h ++ t) r = Slice.toList h r := by
  obtain ⟨r1, r2, r3⟩ := hr
  cases hrp : r.ptr with
  | none =>
    rw [hrp] at r2
    exact ⟨⟨r1, by simpa [Heap.array, hrp] using r2, by simp [hrp]⟩,
      by simp [Slice.toList, hrp, Heap.array]⟩
  | some b =>
    have hb : b < h.length := r3 b hrp
    rw [hrp] at r2
    refine ⟨⟨r1, ?_, ?_⟩, ?_⟩
    · simp only [hrp, Heap.array_append_lt h _ b hb]; exact r2
    · intro c hc
      have := r3 c hc
      simp only [List.length_append]; omega
    · simp only [Slice.toList, hrp, Heap.array_append_lt h _ b hb]

theorem Slice.index_eq_toList (h : Heap α) (r : Slice) (i : Nat) :
    Slice.index h r i = (Slice.toList h r)[i]? := by
  simp only [Slice.index, Slice.toList, List.getElem?_take]

theorem Slice.WF_zero (h : Heap α) : Slice.WF h Slice.zero := by
  simp [Slice.WF, Slice.zero, Heap.array]

theorem Repository.Create_snd [Inhabited α] (grow : Nat → Nat → Nat) (c : α) (w : World α) :
    (Repository.Create grow c w).2
      = ⟨(goAppend grow w.heap w.repo.consignments c).2,
          ⟨(goAppend grow w.heap w.repo.consignments c).1⟩⟩ := rfl

/-- Sequential `Create` calls keep the stored slice well formed and extend the stored
sequence by the created values, in order. -/
theorem createAll_spec [Inhabited α] (grow : Nat → Nat → Nat) (cs : List α) (w : World α)
    (hw : Slice.WF w.heap w.repo.consignments) :
    Slice.WF (createAll grow cs w).heap (createAll grow cs w).repo.consignments ∧
    (createAll grow cs w).stored = w.stored ++ cs := by
  induction cs generalizing w with
  | nil => exact ⟨hw, by simp [createAll]⟩
  | cons c cs ih =>
    have hc := goAppend_spec grow w.heap w.repo.consignments c hw
    have hi := ih (Repository.Create grow c w).2 (by rw [Repository.Create_snd]; exact hc.1)
    have he : createAll grow (c :: cs) w = createAll grow cs (Repository.Create grow c w).2 := rfl
    rw [he]
    refine ⟨hi.1, ?_⟩
    rw [hi.2, Repository.Create_snd]
    simp only [World.stored, hc.2, List.append_assoc, List.singleton_append]

/-- Sequential `Create` calls leave untouched every slice that does not reach beyond the
stored elements. -/
theorem createAll_frame [Inhabited α] (grow : Nat → Nat → Nat) (cs : List α) (w : World α)
    (r : Slice) (hw : Slice.WF w.heap w.repo.consignments) (hr : Slice.WF w.heap r)
    (hrs : r.ptr = w.repo.consignments.ptr → r.len ≤ w.repo.consignments.len) :
    Slice.toList (createAll grow cs w).heap r = Slice.toList w.heap r := by
  induction cs generalizing w with
  | nil => rfl
  | cons c cs ih =>
    have hc := goAppend_spec grow w.heap w.repo.consignments c hw
    have hf := goAppend_frame grow w.heap w.repo.consignments r c hw hr hrs
    have he : createAll grow (c :: cs) w = createAll grow cs (Repository.Create grow c w).2 := rfl
    rw [he, ih (Repository.Create grow c w).2 (by rw [Repository.Create_snd]; exact hc.1)
      (by rw [Repository.Create_snd]; exact hf.1) (by rw [Repository.Create_snd]; exact hf.2.2)]
    rw [Repository.Create_snd]
    exact hf.2.1

/-- The sample state is the one three `Create` calls build from the initial state. -/
theorem sampleWorld_reachable :
    createAll growDouble [1, 2, 3] (World.init []) = sampleWorld := by
  simp [createAll, Repository.Create, goAppend, growDouble, World.init, Slice.zero,
    Slice.toList, Heap.array, sampleWorld]

/-- Overwriting an element of the slice returned by `GetAll` overwrites the same element
of the stored sequence: the returned slice shares its backing array with the repository. -/
theorem World.store_getAll_stored [Inhabited α] (w : World α) (i : Nat) (v : α)
    (hw : Slice.WF w.heap w.repo.consignments) (hi : i < w.repo.consignments.len) :
    ∃ w1, World.store (Repository.GetAll w).2 (Repository.GetAll w).1.1 i v = some w1 ∧
      w1.stored = w.stored.set i v := by
  obtain ⟨h1, h2, h3⟩ := hw
  rw [Repository.GetAll_eq]
  cases hp : w.repo.consignments.ptr with
  | none =>
    rw [hp] at h2
    simp only [Heap.array, List.length_nil, Nat.le_zero_eq] at h2
    omega
  | some a =>
    have ha : a < w.heap.length := h3 a hp
    have ha1 : a < (w.heap ++ [List.replicate w.repo.consignments.len (default : α)]).length := by
      simp only [List.length_append]; omega
    refine ⟨⟨(w.heap ++ [List.replicate w.repo.consignments.len default]).set a
      (((w.heap ++ [List.replicate w.repo.consignments.len default]).getD a []).set i v),
      w.repo⟩, ?_, ?_⟩
    · simp [World.store, Slice.store, hi, hp]
    · have hg : (w.heap ++ [List.replicate w.repo.consignments.len (default : α)]).getD a []
          = w.heap.getD a [] := Heap.array_append_lt w.heap _ a ha
      simp only [World.stored, Slice.toList, hp, Heap.array_set_eq _ a _ ha1, hg,
        List.set_take]
      rfl

/-- A store through any slice changes no array length, so it keeps every slice header
well formed. -/
theorem Slice.WF_store (h h1 : Heap α) (r s : Slice) (i : Nat) (v : α)
    (hst : Slice.store h r i v = some h1) (hs : Slice.WF h s) : Slice.WF h1 s := by
  unfold Slice.store at hst
  split at hst
  · cases hp : r.ptr with
    | none => simp [hp] at hst
    | some a =>
      simp only [hp, Option.some.injEq] at hst
      subst hst
      obtain ⟨s1, s2, s3⟩ := hs
      refine ⟨s1, ?_, ?_⟩
      · cases hsp : s.ptr with
        | none => rw [hsp] at s2; simpa [Heap.array] using s2
        | some b =>
          have hb : b < h.length := s3 b hsp
          rw [hsp] at s2
          by_cases hab : a = b
          · subst hab
            simp only [Heap.array_set_eq h a _ hb, List.length_set]
            exact s2
          · simp only [Heap.array_set_ne h a b _ hab]
            exact s2
      · intro b hb
        simp only [List.length_set]
        exact s3 b hb
  · simp at hst

/-- Every reachable state stores a well-formed slice. -/
theorem Reachable.wf [Inhabited α] (grow : Nat → Nat → Nat) (w : World α)
    (hw : Reachable grow w) : Slice.WF w.heap w.repo.consignments := by
  induction hw with
  | init h => exact Slice.WF_zero h
  | create w c _ ih =>
    rw [Repository.Create_snd]
    exact (goAppend_spec grow w.heap w.repo.consignments c ih).1
  | getAll w _ ih =>
    rw [Repository.GetAll_eq]
    exact (Slice.frame_append w.heap _ w.repo.consignments ih).1
  | store w w1 r i v _ hst ih =>
    unfold World.store at hst
    cases hh : Slice.store w.heap r i v with
    | none => simp [hh] at hst
    | some h1 =>
      simp only [hh, Option.map_some', Option.some.injEq] at hst
      subst hst
      exact Slice.WF_store w.heap h1 r w.repo.consignments i v hh ih

/-! ## The claims -/

/-- C1: starting from a freshly created repository and calling `Create(c1)`, ...,
`Create(cn)` one after the other, a following `GetAll` returns no error and a slice of
length `n` that denotes exactly `[c1, ..., cn]`, in insertion order, for every list of
values (repetitions included), every initial heap and every growth policy. -/
theorem create_sequence_then_getAll [Inhabited α] (grow : Nat → Nat → Nat) (h : Heap α)
    (cs : List α) :
    (Repository.GetAll (createAll grow cs (World.init h))).1.2 = none ∧
    (Repository.GetAll (createAll grow cs (World.init h))).1.1.len = cs.length ∧
    Slice.toList (Repository.GetAll (createAll grow cs (World.init h))).2.heap
      (Repository.GetAll (createAll grow cs (World.init h))).1.1 = cs := by
  have hs := createAll_spec grow cs (World.init h) (Slice.WF_zero h)
  have h0 : (World.init h).stored = [] := by
    simp [World.stored, World.init, Slice.zero, Slice.toList, Heap.array]
  rw [h0, List.nil_append] at hs
  have hl := Slice.length_toList _ _ hs.1
  rw [Repository.GetAll_eq]
  refine ⟨rfl, ?_, ?_⟩
  · rw [← hl]; exact congrArg List.length hs.2
  · rw [(Slice.frame_append _ _ _ hs.1).2]; exact hs.2

/-- C2: in every state and for every consignment `c`, `Create(c)` returns `c` itself
together with a nil error. -/
theorem Repository.Create_returns_argument [Inhabited α] (grow : Nat → Nat → Nat) (c : α)
    (w : World α) :
    (Repository.Create grow c w).1 = (c, none) := rfl

/-- C3 (the code departs from the claim): after `Create(7)` the stored sequence is `[7]`;
the caller takes `r` from `GetAll` and executes `r[0] = 9`; the stored sequence is then
`[9]`, and a later `GetAll` denotes `[9]` as well. -/
theorem getAll_result_shares_storage :
    ((Repository.Create growDouble 7 (World.init ([] : Heap Nat))).2.stored = [7]) ∧
    ((World.store (Repository.GetAll (Repository.Create growDouble 7 (World.init [])).2).2
        (Repository.GetAll (Repository.Create growDouble 7 (World.init [])).2).1.1 0 9).map
      (fun w => (w.stored,
        Slice.toList (Repository.GetAll w).2.heap (Repository.GetAll w).1.1))
      = some ([9], [9])) := by
  decide

/-- C4: if `r` is the slice returned by `GetAll` in a state whose stored slice is well
formed, then after any sequence of later `Create` calls `r` denotes the same sequence
(hence the same length) and `r[i]` is the same at every index `i`; that sequence is the
one that was stored when `GetAll` was called. -/
theorem getAll_result_stable_under_create [Inhabited α] (grow : Nat → Nat → Nat)
    (w : World α) (cs : List α) (hw : Slice.WF w.heap w.repo.consignments) :
    Slice.toList (createAll grow cs (Repository.GetAll w).2).heap (Repository.GetAll w).1.1
      = Slice.toList (Repository.GetAll w).2.heap (Repository.GetAll w).1.1 ∧
    (∀ i, Slice.index (createAll grow cs (Repository.GetAll w).2).heap
        (Repository.GetAll w).1.1 i
      = Slice.index (Repository.GetAll w).2.heap (Repository.GetAll w).1.1 i) ∧
    Slice.toList (Repository.GetAll w).2.heap (Repository.GetAll w).1.1 = w.stored := by
  have hf := Slice.frame_append w.heap [List.replicate w.repo.consignments.len default]
    w.repo.consignments hw
  have hst : Slice.toList (createAll grow cs (Repository.GetAll w).2).heap
      (Repository.GetAll w).1.1
      = Slice.toList (Repository.GetAll w).2.heap (Repository.GetAll w).1.1 := by
    rw [Repository.GetAll_eq]
    exact createAll_frame grow cs _ w.repo.consignments hf.1 hf.1 (fun _ => Nat.le_refl _)
  refine ⟨hst, ?_, ?_⟩
  · intro i
    rw [Slice.index_eq_toList, Slice.index_eq_toList, hst]
  · rw [Repository.GetAll_eq]
    exact hf.2

/-- The statement of C4 at the sample state, with `Create(4)` writing in place and `Create(5)`
reallocating. -/
theorem getAll_result_stable_under_create_witness :
    Slice.WF sampleWorld.heap sampleWorld.repo.consignments ∧
    (Slice.toList (createAll growDouble [4, 5] (Repository.GetAll sampleWorld).2).heap
        (Repository.GetAll sampleWorld).1.1
      = Slice.toList (Repository.GetAll sampleWorld).2.heap (Repository.GetAll sampleWorld).1.1 ∧
    (∀ i, Slice.index (createAll growDouble [4, 5] (Repository.GetAll sampleWorld).2).heap
        (Repository.GetAll sampleWorld).1.1 i
      = Slice.index (Repository.GetAll sampleWorld).2.heap (Repository.GetAll sampleWorld).1.1 i) ∧
    Slice.toList (Repository.GetAll sampleWorld).2.heap (Repository.GetAll sampleWorld).1.1
      = sampleWorld.stored) :=
  ⟨by decide, getAll_result_stable_under_create growDouble sampleWorld [4, 5] (by decide)⟩

/-- C5: for every implementation of the interface `repository`, every request and every
state, `CreateConsignment` performs the call `repo.Create(req)` and, when that call returns
`(c, nil)`, returns the response with `Created = true` and `Consignment = c` and a nil
error; when that call returns an error `e`, it returns the nil response and the same
error `e`. The state afterwards is the one `repo.Create(req)` leaves. -/
theorem service.CreateConsignment_result (s : service σ α) (req : α) (st : σ) :
    (∀ c st1, s.repo.Create req st = ((c, none), st1) →
      s.CreateConsignment req st = ((some ⟨true, c⟩, none), st1)) ∧
    (∀ c e st1, s.repo.Create req st = ((c, some e), st1) →
      s.CreateConsignment req st = ((none, some e), st1)) := by
  constructor
  · intro c st1 hc
    simp [service.CreateConsignment, hc]
  · intro c e st1 hc
    simp [service.CreateConsignment, hc]

/-- The statement of C5 on the real repository at the sample state and on the failing one. -/
theorem service.CreateConsignment_result_witness :
    service.CreateConsignment ⟨Repository.impl growDouble⟩ 4 sampleWorld
      = ((some ⟨true, 4⟩, none), ⟨[[1], [1, 2], [1, 2, 3, 4]], ⟨⟨some 2, 4, 4⟩⟩⟩) ∧
    service.CreateConsignment ⟨failingRepo⟩ 4 0
      = ((none, some ⟨"create failed"⟩), 1) :=
  ⟨(service.CreateConsignment_result ⟨Repository.impl growDouble⟩ 4 sampleWorld).1 _ _ rfl,
   (service.CreateConsignment_result ⟨failingRepo⟩ 4 0).2 _ _ _ rfl⟩

/-- C6: for every implementation of the interface `repository` and every state,
`GetConsignments` performs the call `repo.GetAll()` and, when that call returns `(xs, nil)`,
returns the response whose `Consignments` field is `xs` itself and a nil error; when that
call returns an error `e`, it returns the nil response and the same error `e`. The state
afterwards is the one `repo.GetAll()` leaves. -/
theorem service.GetConsignments_result (s : service σ α) (st : σ) :
    (∀ xs st1, s.repo.GetAll st = ((xs, none), st1) →
      s.GetConsignments st = ((some ⟨xs⟩, none), st1)) ∧
    (∀ xs e st1, s.repo.GetAll st = ((xs, some e), st1) →
      s.GetConsignments st = ((none, some e), st1)) := by
  constructor
  · intro xs st1 hc
    simp [service.GetConsignments, hc]
  · intro xs e st1 hc
    simp [service.GetConsignments, hc]

/-- The statement of C6 on the real repository at the sample state and on the failing one. -/
theorem service.GetConsignments_result_witness :
    service.GetConsignments (⟨Repository.impl growDouble⟩ : service (World Nat) Nat) sampleWorld
      = ((some ⟨⟨some 2, 3, 4⟩⟩, none),
          ⟨[[1], [1, 2], [1, 2, 3, 0], [0, 0, 0]], ⟨⟨some 2, 3, 4⟩⟩⟩) ∧
    service.GetConsignments ⟨failingRepo⟩ 0
      = ((none, some ⟨"get failed"⟩), 1) :=
  ⟨(service.GetConsignments_result ⟨Repository.impl growDouble⟩ sampleWorld).1 _ _ rfl,
   (service.GetConsignments_result ⟨failingRepo⟩ 0).2 _ _ _ rfl⟩

/-- C7: on the repository as `main` creates it (the zero value, in any heap) `GetAll`
returns a nil error and a slice of length 0, which denotes the empty sequence. -/
theorem getAll_on_fresh_repository [Inhabited α] (h : Heap α) :
    (Repository.GetAll (World.init h)).1.2 = none ∧
    (Repository.GetAll (World.init h)).1.1.len = 0 ∧
    Slice.toList (Repository.GetAll (World.init h)).2.heap
      (Repository.GetAll (World.init h)).1.1 = [] := by
  rw [Repository.GetAll_eq]
  simp [World.init, Slice.zero, Slice.toList, Heap.array]

/-- C8: in every state whose stored slice is well formed, `Create(c)` turns the stored
sequence `s` into `s ++ [c]` (so its length grows by exactly 1, whether or not `c` was
already stored, and `s` is a prefix of the result), and `GetAll` leaves the stored sequence
equal to `s`. Both operations keep the stored slice well formed. -/
theorem stored_sequence_append_only [Inhabited α] (grow : Nat → Nat → Nat) (w : World α)
    (c : α) (hw : Slice.WF w.heap w.repo.consignments) :
    (Repository.Create grow c w).2.stored = w.stored ++ [c] ∧
    (Repository.Create grow c w).2.stored.length = w.stored.length + 1 ∧
    w.stored <+: (Repository.Create grow c w).2.stored ∧
    (Repository.GetAll w).2.stored = w.stored ∧
    w.stored <+: (Repository.GetAll w).2.stored ∧
    Slice.WF (Repository.Create grow c w).2.heap (Repository.Create grow c w).2.repo.consignments ∧
    Slice.WF (Repository.GetAll w).2.heap (Repository.GetAll w).2.repo.consignments := by
  have hc := goAppend_spec grow w.heap w.repo.consignments c hw
  have hf := Slice.frame_append w.heap [List.replicate w.repo.consignments.len default]
    w.repo.consignments hw
  have h1 : (Repository.Create grow c w).2.stored = w.stored ++ [c] := by
    rw [Repository.Create_snd]; exact hc.2
  have h2 : (Repository.GetAll w).2.stored = w.stored := by
    rw [Repository.GetAll_eq]; exact hf.2
  refine ⟨h1, ?_, ?_, h2, ?_, ?_, ?_⟩
  · rw [h1]; simp
  · rw [h1]; exact ⟨[c], rfl⟩
  · rw [h2]
  · rw [Repository.Create_snd]; exact hc.1
  · rw [Repository.GetAll_eq]; exact hf.1

/-- The statement of C8 at the sample state, creating a value that is already stored. -/
theorem stored_sequence_append_only_witness :
    Slice.WF sampleWorld.heap sampleWorld.repo.consignments ∧
    (Repository.Create growDouble 2 sampleWorld).2.stored = sampleWorld.stored ++ [2] ∧
    (Repository.Create growDouble 2 sampleWorld).2.stored.length
      = sampleWorld.stored.length + 1 ∧
    sampleWorld.stored <+: (Repository.Create growDouble 2 sampleWorld).2.stored ∧
    (Repository.GetAll sampleWorld).2.stored = sampleWorld.stored ∧
    sampleWorld.stored <+: (Repository.GetAll sampleWorld).2.stored ∧
    Slice.WF (Repository.Create growDouble 2 sampleWorld).2.heap
      (Repository.Create growDouble 2 sampleWorld).2.repo.consignments ∧
    Slice.WF (Repository.GetAll sampleWorld).2.heap
      (Repository.GetAll sampleWorld).2.repo.consignments :=
  ⟨by decide, stored_sequence_append_only growDouble sampleWorld 2 (by decide)⟩

/-- C10: in every state whose stored slice is well formed, the buffer `cp` of `GetAll` has
length 0 and capacity the number of stored consignments, `copy(cp, repo.consignments)`
copies 0 elements, `cp` denotes the empty sequence and the cells of its array are all still
zero when `GetAll` returns, and the slice `GetAll` returns is the header stored in
`repo.consignments`, which points at another array than `cp` does. -/
theorem getAll_copy_buffer_unused [Inhabited α] (w : World α)
    (hw : Slice.WF w.heap w.repo.consignments) :
    (Repository.GetAll_locals w).cp.len = 0 ∧
    (Repository.GetAll_locals w).cp.cap = w.repo.consignments.len ∧
    (Repository.GetAll_locals w).copied = 0 ∧
    Slice.toList (Repository.GetAll_locals w).heap (Repository.GetAll_locals w).cp = [] ∧
    Heap.array (Repository.GetAll_locals w).heap (Repository.GetAll_locals w).cp.ptr
      = List.replicate w.repo.consignments.len default ∧
    (Repository.GetAll w).1.1 = w.repo.consignments ∧
    (Repository.GetAll w).1.1.ptr ≠ (Repository.GetAll_locals w).cp.ptr := by
  rw [Repository.GetAll_eq, Repository.GetAll_locals_eq]
  refine ⟨rfl, rfl, rfl, ?_, ?_, rfl, ?_⟩
  · simp [Slice.toList]
  · exact Heap.array_append_length _ _
  · intro hp
    have := hw.2.2 _ hp
    omega

/-- The statement of C10 at the sample state. -/
theorem getAll_copy_buffer_unused_witness :
    Slice.WF sampleWorld.heap sampleWorld.repo.consignments ∧
    (Repository.GetAll_locals sampleWorld).cp.len = 0 ∧
    (Repository.GetAll_locals sampleWorld).cp.cap = sampleWorld.repo.consignments.len ∧
    (Repository.GetAll_locals sampleWorld).copied = 0 ∧
    Slice.toList (Repository.GetAll_locals sampleWorld).heap
      (Repository.GetAll_locals sampleWorld).cp = [] ∧
    Heap.array (Repository.GetAll_locals sampleWorld).heap
      (Repository.GetAll_locals sampleWorld).cp.ptr
      = List.replicate sampleWorld.repo.consignments.len default ∧
    (Repository.GetAll sampleWorld).1.1 = sampleWorld.repo.consignments ∧
    (Repository.GetAll sampleWorld).1.1.ptr ≠ (Repository.GetAll_locals sampleWorld).cp.ptr :=
  ⟨by decide, getAll_copy_buffer_unused sampleWorld (by decide)⟩

end Shippy
